/-
Verification of ipcalc.py (IPv4/v6 subnet calculator) against its
natural-language specification.

The development shallowly embeds the arithmetic core of `src/ipcalc.py`:
machine addresses are `Nat` with explicit `2 ^ 32` bounds, fallible code
returns `Except`/`Option`, and the Python floating-point calls
`math.ceil(math.log2 n)` / `int(math.log2 n)` are embedded as exact
integer ceiling/floor base-2 logarithms (exact for every value the
program can reach on 32-bit data).
-/
import Mathlib

set_option maxHeartbeats 1000000
set_option maxRecDepth 10000

/-- Bounded search for the least exponent `j ≥ k` with `n ≤ 2 ^ j`.
The fuel only limits the search depth; `n` itself is always enough fuel. -/
def ceilLog2Aux (n : Nat) : Nat → Nat → Nat
  | 0, k => k
  | fuel + 1, k => if n ≤ 2 ^ k then k else ceilLog2Aux n fuel (k + 1)

/-- Embedding of `math.ceil(math.log2 n)` from `handle_split_network`
(`power = math.ceil(math.log2(actual_size))`), for `n ≥ 1`: the least `j`
with `n ≤ 2 ^ j`, computed with exact integer arithmetic. -/
def ceilLog2 (n : Nat) : Nat := ceilLog2Aux n n 0

/-- Bounded search for the greatest exponent: returns `k` once `n < 2 ^ (k+1)`. -/
def floorLog2Aux (n : Nat) : Nat → Nat → Nat
  | 0, k => k
  | fuel + 1, k => if n < 2 ^ (k + 1) then k else floorLog2Aux n fuel (k + 1)

/-- Embedding of `int(math.log2 n)` (also of Python's `n.bit_length() - 1`)
for `n ≥ 1`: the greatest `j` with `2 ^ j ≤ n`. -/
def floorLog2 (n : Nat) : Nat := floorLog2Aux n n 0

/-- Greatest `j ≤ bound` with `2 ^ j` dividing `n`, by downward search. -/
def crzAux (n : Nat) : Nat → Nat
  | 0 => 0
  | j + 1 => if n % 2 ^ (j + 1) = 0 then j + 1 else crzAux n j

/-- Embedding of `ipaddress._count_righthand_zero_bits(number, bits)`:
`bits` if `number = 0`, otherwise `min bits (trailing zero count of number)`,
computed here as the greatest `j ≤ bits` with `2 ^ j ∣ number`. -/
def countRighthandZeroBits (number bits : Nat) : Nat :=
  if number = 0 then bits else crzAux number bits

/-- An IPv4 network as the program manipulates it: a base address and a
prefix length (field `plen`, mirroring `ipaddress.IPv4Network.prefixlen`). -/
structure Network where
  base : Nat
  plen : Nat
deriving DecidableEq

/-- Embedding of `network.num_addresses` for an IPv4 network: `2 ^ (32 - p)`. -/
def Network.numAddresses (n : Network) : Nat := 2 ^ (32 - n.plen)

/-- Embedding of `network.broadcast_address`: the last address of the block. -/
def Network.broadcast (n : Network) : Nat := n.base + n.numAddresses - 1

/-- Invariant established by `ipaddress.ip_network(..., strict=False)` for
every network object the program builds: the prefix is a legal IPv4 prefix,
the base fits in 32 bits, and the host bits of the base are zero (loose
parsing discards them). -/
def Network.wf (n : Network) : Prop :=
  n.plen ≤ 32 ∧ n.base < 2 ^ 32 ∧ n.base % 2 ^ (32 - n.plen) = 0

instance (n : Network) : Decidable n.wf := by
  unfold Network.wf; infer_instance

/-- Embedding of `get_class` (src/ipcalc.py lines 84-95): the class letter is
decoded from the leading bits of the first octet (`address.packed[0]`, here
`addr / 2 ^ 24` for a 32-bit address). -/
def get_class (addr : Nat) : Char :=
  let firstOctet := addr / 2 ^ 24
  if firstOctet &&& 128 = 0 then 'A'
  else if firstOctet &&& 192 = 128 then 'B'
  else if firstOctet &&& 224 = 192 then 'C'
  else if firstOctet &&& 240 = 224 then 'D'
  else 'E'

/-- Embedding of the classful default prefix chosen by `main` (src/ipcalc.py
lines 432-441) when no explicit prefix is supplied: class A selects 8,
class B selects 16, and every other class selects 24. -/
def classfulDefaultPlen (addr : Nat) : Nat :=
  if get_class addr = 'A' then 8
  else if get_class addr = 'B' then 16
  else 24

/-- Embedding of the host counting in `print_network_info` (src/ipcalc.py
lines 210-214): start from `num_addresses`, subtract 2 when the prefix is
shorter than 31, and clamp a negative result to 0. -/
def hostsCount (n : Network) : Int :=
  let c : Int := if n.plen < 31 then (n.numAddresses : Int) - 2 else (n.numAddresses : Int)
  if c < 0 then 0 else c

/-- Embedding of the HostMin/HostMax lines of `print_network_info`
(src/ipcalc.py lines 201-208): for a prefix below 31 the usable range is
`network+1 .. broadcast-1`; at 31 both endpoints are usable; at 32 no host
range is printed. -/
def hostRange (n : Network) : Option (Nat × Nat) :=
  if n.plen < 31 then some (n.base + 1, n.broadcast - 1)
  else if n.plen = 31 then some (n.base, n.broadcast)
  else none

/-- Outcome classes of `main` after the output mode is configured
(src/ipcalc.py lines 380-457): range deaggregation, the IPv6 path, the
class-only path, the VLSM split handler, or the standard IPv4 report. -/
inductive MainAction where
  | rangeMode : MainAction
  | ipv6Info : MainAction
  | classOnly : MainAction
  | splitMode : List Int → MainAction
  | standard : MainAction
deriving DecidableEq

/-- Embedding of the dispatch order of `main` (src/ipcalc.py lines 380-457):
the range syntax is checked first, then the address family (the IPv6 branch
prints and exits at line 412), then `--class`, then `-s`, and only then the
standard report. -/
def mainDispatch (rangeSyntax isV6 printClass : Bool) (split : Option (List Int)) :
    MainAction :=
  if rangeSyntax then .rangeMode
  else if isV6 then .ipv6Info
  else if printClass then .classOnly
  else
    match split with
    | some sizes => .splitMode sizes
    | none => .standard

/-- Modelled from the spec: the repository calls the standard library
iterator `network.subnets(new_prefix=q)` (not part of src/); per §4.2 it
produces every subnet of the network at prefix `q`, in ascending order of
network address, i.e. bases `base + i * 2^(32-q)` for `i < 2^(q - p)`. -/
def subnetsAtPlen (n : Network) (q : Nat) : List Network :=
  (List.range (2 ^ (q - n.plen))).map (fun i => ⟨n.base + i * 2 ^ (32 - q), q⟩)

/-- Modelled from the spec: the repository calls the standard library
method `network.supernet(new_prefix=p)` (not part of src/); per §4.2 it
returns the unique supernet at `p` obtained by clearing the additional
low-order bits of the base and keeping `p`. -/
def supernetAtPlen (n : Network) (p : Nat) : Network :=
  ⟨n.base - n.base % 2 ^ (32 - p), p⟩

/-- Outcome of the second-netmask handling at the end of `main`. -/
inductive TransitionResult where
  | invalidNetmask : TransitionResult
  | subnetsOf : List Network → TransitionResult
  | supernetOf : Network → TransitionResult
  | silentNoop : TransitionResult
deriving DecidableEq

/-- Embedding of the second-netmask handling of `main` (src/ipcalc.py lines
478-501): a prefix outside `[0, 32]` raises `ValueError` (reported as an
invalid netmask); a strictly larger prefix enumerates subnets; a strictly
smaller one computes the supernet; an equal prefix falls through both
branches and nothing happens. -/
def handleSecondNetmask (n : Network) (newPlen : Int) : TransitionResult :=
  if ¬(0 ≤ newPlen ∧ newPlen ≤ 32) then .invalidNetmask
  else if (n.plen : Int) < newPlen then .subnetsOf (subnetsAtPlen n newPlen.toNat)
  else if newPlen < (n.plen : Int) then .supernetOf (supernetAtPlen n newPlen.toNat)
  else .silentNoop

/-- One entry of the `needed_blocks` list built by `handle_split_network`
(src/ipcalc.py lines 303-310). -/
structure NeededBlock where
  originalSize : Int
  blockSize : Nat
  originalIndex : Nat
deriving DecidableEq

/-- Failure modes of `handle_split_network`: the `math.log2` domain error on
`actual_size ≤ 0`, the explicit capacity error (carrying the requested total
and the available address count, which the code prints), the `ValueError`
raised by the strict `ipaddress.ip_network((addr, plen))` constructor when
host bits are set, and the `AddressValueError` raised when the cursor
`current_address += block_size` passes the top of the 32-bit space. -/
inductive SplitError where
  | logDomain : SplitError
  | capacityExceeded : Nat → Nat → SplitError
  | strictHostBits : SplitError
  | addressOverflow : SplitError
deriving DecidableEq

/-- Embedding of the first loop of `handle_split_network` (src/ipcalc.py
lines 303-310): for each requested host count, `actual_size = size + 2`, the
exponent is `ceil(log2 actual_size)` (a `ValueError` when `actual_size ≤ 0`),
and the block records the original size, the rounded power-of-two block size
and the original position. -/
def computeNeededAux : Nat → List Int → Except SplitError (List NeededBlock)
  | _, [] => .ok []
  | i, size :: rest =>
    let actualSize := size + 2
    if actualSize ≤ 0 then .error .logDomain
    else
      match computeNeededAux (i + 1) rest with
      | .error e => .error e
      | .ok tail => .ok (⟨size, 2 ^ ceilLog2 actualSize.toNat, i⟩ :: tail)

/-- Insertion of one block into a descending-sorted list, placed after every
element whose block size is at least as large. -/
def insertDesc (b : NeededBlock) : List NeededBlock → List NeededBlock
  | [] => [b]
  | c :: rest =>
    if c.blockSize < b.blockSize then b :: c :: rest else c :: insertDesc b rest

/-- Embedding of `needed_blocks.sort(key=lambda x: x['block_size'],
reverse=True)` (src/ipcalc.py line 313). Python's sort is stable, and a
stable descending sort has a unique result, so insertion sort (which keeps
earlier elements in front of later equal-keyed ones) computes the same
list. -/
def sortByBlockSizeDesc (l : List NeededBlock) : List NeededBlock :=
  l.foldl (fun acc b => insertDesc b acc) []

/-- Embedding of the allocation loop of `handle_split_network` (src/ipcalc.py
lines 321-328): for each block, the prefix is `32 - int(log2 blockSize)`, the
strict `ip_network` constructor requires the cursor's host bits to be zero,
the subnet is stored at the block's original index, and the cursor advance
re-constructs an `IPv4Address`, which fails at `2^32`. -/
def allocLoop : Nat → List NeededBlock → List (Option Network) →
    Except SplitError (List (Option Network))
  | _, [], acc => .ok acc
  | cursor, b :: rest, acc =>
    let p := 32 - floorLog2 b.blockSize
    if cursor % 2 ^ (32 - p) ≠ 0 then .error .strictHostBits
    else
      let acc' := acc.set b.originalIndex (some ⟨cursor, p⟩)
      let cursor' := cursor + b.blockSize
      if 2 ^ 32 ≤ cursor' then .error .addressOverflow
      else allocLoop cursor' rest acc'

/-- Embedding of `handle_split_network` (src/ipcalc.py lines 298-328):
compute the rounded blocks, sort them by descending block size, fail with
the capacity message when the total exceeds `num_addresses`, and otherwise
run the allocation loop from the parent's (already normalized) base address
over a `None`-initialized result list. -/
def handle_split_network (network : Network) (sizes : List Int) :
    Except SplitError (List (Option Network)) :=
  match computeNeededAux 0 sizes with
  | .error e => .error e
  | .ok needed =>
    let sorted := sortByBlockSizeDesc needed
    let totalNeeded := (sorted.map (fun b => b.blockSize)).sum
    if network.numAddresses < totalNeeded then
      .error (.capacityExceeded totalNeeded network.numAddresses)
    else allocLoop network.base sorted (List.replicate sizes.length none)

/-- Rounded power-of-two block sizes of a requirement list, in caller order
(meaningful when every `size + 2` is positive). -/
def totalBlockSizes (sizes : List Int) : Nat :=
  (sizes.map (fun s => 2 ^ ceilLog2 (s + 2).toNat)).sum

/-- Reference form of the `needed_blocks` list when no entry is invalid. -/
def neededList : Nat → List Int → List NeededBlock
  | _, [] => []
  | i, size :: rest => ⟨size, 2 ^ ceilLog2 (size + 2).toNat, i⟩ :: neededList (i + 1) rest

deriving instance DecidableEq for Except

/-- Writes performed by the allocation loop, as a total function: the same
network values at the same indices that `allocLoop` stores when none of its
checks fires. -/
def placeAll : Nat → List NeededBlock → List (Option Network) → List (Option Network)
  | _, [], acc => acc
  | cursor, b :: rest, acc =>
    placeAll (cursor + b.blockSize) rest
      (acc.set b.originalIndex (some ⟨cursor, 32 - floorLog2 b.blockSize⟩))

/-- Association list of (original index, allocated network) in placement
order, with the cursor advanced by each block size. -/
def placements : Nat → List NeededBlock → List (Nat × Network)
  | _, [] => []
  | cursor, b :: rest =>
    (b.originalIndex, ⟨cursor, 32 - floorLog2 b.blockSize⟩) ::
      placements (cursor + b.blockSize) rest

/-- The size `s` is the least power of two that is at least `h + 2`. -/
def blockSpec (h : Int) (s : Nat) : Prop :=
  h + 2 ≤ (s : Int) ∧ ∃ k, s = 2 ^ k ∧ ∀ j : Nat, h + 2 ≤ ((2 ^ j : Nat) : Int) → s ≤ 2 ^ j

/-- The network's start address is an exact multiple of its own size. -/
def alignedBlock (n : Network) : Prop := n.base % n.numAddresses = 0

/-- The block lies entirely within the parent network. -/
def insideParent (parent n : Network) : Prop :=
  parent.base ≤ n.base ∧ n.base + n.numAddresses ≤ parent.base + parent.numAddresses

/-- Two blocks occupy disjoint address ranges. -/
def disjointBlocks (a b : Network) : Prop :=
  a.base + a.numAddresses ≤ b.base ∨ b.base + b.numAddresses ≤ a.base

/-- Modelled from the spec: block-size exponent of one step of range
summarization, per §4.4 (the repository calls the standard library generator
`ipaddress.summarize_address_range`, which is not part of src/): the minimum
of the alignment of `first` (its trailing-zero count capped at the family
width `w`) and the floor base-2 logarithm of the remaining address count. -/
def greedyNbits (w last first : Nat) : Nat :=
  min (countRighthandZeroBits first w) (floorLog2 (last - first + 1))

/-- Modelled from the spec: the summarization loop of §4.4 with explicit
fuel (each step consumes at least one address, so `last + 1 - first` steps
always suffice): while `first ≤ last`, emit the network
`(first, w - nbits)` and advance `first` by `2 ^ nbits`. -/
def summarizeAux (w last : Nat) : Nat → Nat → List Network
  | 0, _ => []
  | fuel + 1, first =>
    if first ≤ last then
      (⟨first, w - greedyNbits w last first⟩ : Network) ::
        summarizeAux w last fuel (first + 2 ^ greedyNbits w last first)
    else []

/-- Modelled from the spec: `summarize_address_range` for a single family of
bit width `w` (32 for IPv4, 128 for IPv6), on numeric addresses. -/
def summarize_address_range (w first last : Nat) : List Network :=
  summarizeAux w last (last + 1 - first) first

/-- Address count of a network at family width `w` (for IPv4, `w = 32` makes
this `Network.numAddresses`). -/
def blockCount (w : Nat) (n : Network) : Nat := 2 ^ (w - n.plen)

/-- The list of networks tiles the half-open interval `[lo, hi)` exactly: each block
starts where the previous one ended, stays inside, and the last ends at
`hi`. This expresses "ordered, union exactly the range, no gaps, no
overlaps". -/
def TilesFrom (w : Nat) : List Network → Nat → Nat → Prop
  | [], lo, hi => lo = hi
  | n :: rest, lo, hi =>
    n.base = lo ∧ lo + blockCount w n ≤ hi ∧ TilesFrom w rest (lo + blockCount w n) hi

/-- A syntactically valid CIDR block at family width `w`: legal prefix and a
base aligned to the block's own size. -/
def ValidBlock (w : Nat) (n : Network) : Prop :=
  n.plen ≤ w ∧ n.base % blockCount w n = 0

theorem ceilLog2Aux_spec (n : Nat) : ∀ fuel k, n ≤ 2 ^ (k + fuel) →
    n ≤ 2 ^ ceilLog2Aux n fuel k ∧ k ≤ ceilLog2Aux n fuel k ∧
      ∀ j, k ≤ j → n ≤ 2 ^ j → ceilLog2Aux n fuel k ≤ j := by
  intro fuel
  induction fuel with
  | zero => intro k hk; exact ⟨hk, le_refl _, fun j hj _ => hj⟩
  | succ fuel ih =>
    intro k hk
    by_cases h : n ≤ 2 ^ k
    · simp only [ceilLog2Aux, if_pos h]
      exact ⟨h, le_refl _, fun j hj _ => hj⟩
    · simp only [ceilLog2Aux, if_neg h]
      have hk' : n ≤ 2 ^ (k + 1 + fuel) := by
        have : k + 1 + fuel = k + (fuel + 1) := by omega
        rw [this]; exact hk
      obtain ⟨h1, h2, h3⟩ := ih (k + 1) hk'
      refine ⟨h1, by omega, fun j hj hnj => ?_⟩
      have hjk : k + 1 ≤ j := by
        rcases Nat.eq_or_lt_of_le hj with rfl | h'
        · exact absurd hnj h
        · omega
      exact h3 j hjk hnj

theorem le_pow_ceilLog2 (n : Nat) : n ≤ 2 ^ ceilLog2 n := by
  have h : n ≤ 2 ^ (0 + n) := by
    simpa using (Nat.lt_two_pow n).le
  exact (ceilLog2Aux_spec n n 0 h).1

theorem ceilLog2_le (n j : Nat) (h : n ≤ 2 ^ j) : ceilLog2 n ≤ j := by
  have h0 : n ≤ 2 ^ (0 + n) := by
    simpa using (Nat.lt_two_pow n).le
  exact (ceilLog2Aux_spec n n 0 h0).2.2 j (Nat.zero_le j) h

theorem ceilLog2_two_pow (k : Nat) : ceilLog2 (2 ^ k) = k := by
  refine Nat.le_antisymm (ceilLog2_le _ k (le_refl _)) ?_
  by_contra h
  have hlt : ceilLog2 (2 ^ k) < k := by omega
  have := le_pow_ceilLog2 (2 ^ k)
  have := Nat.pow_lt_pow_right (by omega : 1 < 2) hlt
  omega

theorem floorLog2Aux_spec (n : Nat) : ∀ fuel k, 2 ^ k ≤ n → n < 2 ^ (k + fuel + 1) →
    2 ^ floorLog2Aux n fuel k ≤ n ∧ n < 2 ^ (floorLog2Aux n fuel k + 1) := by
  intro fuel
  induction fuel with
  | zero => intro k hk hk'; exact ⟨hk, by simpa using hk'⟩
  | succ fuel ih =>
    intro k hk hk'
    by_cases h : n < 2 ^ (k + 1)
    · simp only [floorLog2Aux, if_pos h]
      exact ⟨hk, h⟩
    · simp only [floorLog2Aux, if_neg h]
      refine ih (k + 1) (by omega) ?_
      have : k + 1 + fuel + 1 = k + (fuel + 1) + 1 := by omega
      rw [this]; exact hk'

theorem floorLog2_spec (n : Nat) (hn : 1 ≤ n) :
    2 ^ floorLog2 n ≤ n ∧ n < 2 ^ (floorLog2 n + 1) := by
  have h0 : 2 ^ 0 ≤ n := by simpa using hn
  have h1 : n < 2 ^ (0 + n + 1) := by
    have := Nat.lt_two_pow n
    have h2 : (2:Nat) ^ n ≤ 2 ^ (0 + n + 1) := Nat.pow_le_pow_right (by omega) (by omega)
    omega
  exact floorLog2Aux_spec n n 0 h0 h1

theorem pow_floorLog2_le (n : Nat) (hn : 1 ≤ n) : 2 ^ floorLog2 n ≤ n :=
  (floorLog2_spec n hn).1

theorem lt_pow_floorLog2_succ (n : Nat) (hn : 1 ≤ n) : n < 2 ^ (floorLog2 n + 1) :=
  (floorLog2_spec n hn).2

theorem le_floorLog2 (n j : Nat) (hn : 1 ≤ n) (h : 2 ^ j ≤ n) : j ≤ floorLog2 n := by
  by_contra hc
  have h1 : floorLog2 n + 1 ≤ j := by omega
  have h2 : (2:Nat) ^ (floorLog2 n + 1) ≤ 2 ^ j := Nat.pow_le_pow_right (by omega) h1
  have := lt_pow_floorLog2_succ n hn
  omega

theorem floorLog2_two_pow (k : Nat) : floorLog2 (2 ^ k) = k := by
  have h1 : k ≤ floorLog2 (2 ^ k) :=
    le_floorLog2 _ k (Nat.one_le_two_pow) (le_refl _)
  have h2 : 2 ^ floorLog2 (2 ^ k) ≤ 2 ^ k :=
    pow_floorLog2_le _ (Nat.one_le_two_pow)
  have h3 : floorLog2 (2 ^ k) ≤ k :=
    (Nat.pow_le_pow_iff_right (by omega : 1 < 2)).1 h2
  omega

theorem crzAux_le (n : Nat) : ∀ bound, crzAux n bound ≤ bound := by
  intro bound
  induction bound with
  | zero => simp [crzAux]
  | succ j ih =>
    simp only [crzAux]
    split
    · exact le_refl _
    · omega

theorem crzAux_dvd (n : Nat) : ∀ bound, 2 ^ crzAux n bound ∣ n := by
  intro bound
  induction bound with
  | zero => simp [crzAux]
  | succ j ih =>
    simp only [crzAux]
    split
    · next h => exact Nat.dvd_of_mod_eq_zero h
    · exact ih

theorem le_crzAux (n : Nat) : ∀ bound j, j ≤ bound → 2 ^ j ∣ n → j ≤ crzAux n bound := by
  intro bound
  induction bound with
  | zero => intro j hj _; omega
  | succ b ih =>
    intro j hj hdvd
    simp only [crzAux]
    split
    · exact hj
    · next h =>
      have hjb : j ≤ b := by
        rcases Nat.eq_or_lt_of_le hj with rfl | h'
        · exact absurd (Nat.mod_eq_zero_of_dvd hdvd) h
        · omega
      exact ih j hjb hdvd

theorem countRighthandZeroBits_le (n bits : Nat) : countRighthandZeroBits n bits ≤ bits := by
  unfold countRighthandZeroBits
  split
  · exact le_refl _
  · exact crzAux_le n bits

theorem countRighthandZeroBits_dvd (n bits : Nat) :
    2 ^ countRighthandZeroBits n bits ∣ n := by
  unfold countRighthandZeroBits
  split
  · next h => simp [h]
  · exact crzAux_dvd n bits

theorem le_countRighthandZeroBits (n bits j : Nat) (hj : j ≤ bits) (hdvd : 2 ^ j ∣ n) :
    j ≤ countRighthandZeroBits n bits := by
  unfold countRighthandZeroBits
  split
  · exact hj
  · exact le_crzAux n bits j hj hdvd

/-- C7: for an IPv4 network, a prefix below 31 reports
`numAddresses - 2` usable hosts (never negative) with range
`network+1 .. broadcast-1`; prefix 31 reports 2 hosts with both endpoints
usable; prefix 32 reports 1 host and no separate host range. -/
theorem claim_C7_host_count (n : Network) (hwf : n.wf) :
    (n.plen < 31 → hostsCount n = (n.numAddresses : Int) - 2 ∧ 0 ≤ hostsCount n ∧
      hostRange n = some (n.base + 1, n.base + n.numAddresses - 2)) ∧
    (n.plen = 31 → hostsCount n = 2 ∧ hostRange n = some (n.base, n.base + 1)) ∧
    (n.plen = 32 → hostsCount n = 1 ∧ hostRange n = none) := by
  obtain ⟨hp, hb, hm⟩ := hwf
  refine ⟨?_, ?_, ?_⟩
  · intro h31
    have h4 : (4:Nat) ≤ n.numAddresses := by
      have : (2:Nat) ^ 2 ≤ 2 ^ (32 - n.plen) := Nat.pow_le_pow_right (by omega) (by omega)
      simpa [Network.numAddresses] using this
    have hc : hostsCount n = (n.numAddresses : Int) - 2 := by
      simp only [hostsCount, if_pos h31]
      rw [if_neg (by omega)]
    refine ⟨hc, by omega, ?_⟩
    have heq : n.broadcast - 1 = n.base + n.numAddresses - 2 := by
      simp only [Network.broadcast]
      omega
    simp only [hostRange, if_pos h31, heq]
  · intro h31
    have hnum : n.numAddresses = 2 := by
      simp [Network.numAddresses, h31]
    have hc : hostsCount n = 2 := by
      simp only [hostsCount, hnum, h31]
      norm_num
    refine ⟨hc, ?_⟩
    simp only [hostRange, h31, Network.broadcast, hnum]
    norm_num
  · intro h32
    have hnum : n.numAddresses = 1 := by
      simp [Network.numAddresses, h32]
    have hc : hostsCount n = 1 := by
      simp only [hostsCount, hnum, h32]
      norm_num
    refine ⟨hc, ?_⟩
    simp [hostRange, h32]

/-- Witness for C7 at 192.168.0.0/24. -/
theorem claim_C7_host_count_witness :
    (⟨3232235520, 24⟩ : Network).wf ∧
    hostsCount ⟨3232235520, 24⟩ = ((⟨3232235520, 24⟩ : Network).numAddresses : Int) - 2 :=
  ⟨by decide, (((claim_C7_host_count ⟨3232235520, 24⟩ (by decide)).1) (by norm_num)).1⟩

/-- C8: for a 32-bit IPv4 address given without an explicit prefix, the
inferred classful default prefix is 8 when the leading address bit is 0,
16 when the leading bits are `10`, and 24 in every other case. -/
theorem claim_C8_classful_default (a : Nat) (ha : a < 2 ^ 32) :
    (a.testBit 31 = false → classfulDefaultPlen a = 8) ∧
    (a.testBit 31 = true → a.testBit 30 = false → classfulDefaultPlen a = 16) ∧
    (a.testBit 31 = true → a.testBit 30 = true → classfulDefaultPlen a = 24) := by
  have h1 : a.testBit 31 = (a / 2 ^ 24).testBit 7 := by
    rw [← Nat.shiftRight_eq_div_pow, Nat.testBit_shiftRight]
  have h2 : a.testBit 30 = (a / 2 ^ 24).testBit 6 := by
    rw [← Nat.shiftRight_eq_div_pow, Nat.testBit_shiftRight]
  have ho : a / 2 ^ 24 < 256 := by
    apply Nat.div_lt_of_lt_mul
    omega
  have hcongr : classfulDefaultPlen a = classfulDefaultPlen (a / 2 ^ 24 * 2 ^ 24) := by
    unfold classfulDefaultPlen get_class
    rw [Nat.mul_div_cancel _ (by norm_num)]
  have key : ∀ o : Nat, o < 256 →
      (o.testBit 7 = false → classfulDefaultPlen (o * 2 ^ 24) = 8) ∧
      (o.testBit 7 = true → o.testBit 6 = false → classfulDefaultPlen (o * 2 ^ 24) = 16) ∧
      (o.testBit 7 = true → o.testBit 6 = true → classfulDefaultPlen (o * 2 ^ 24) = 24) := by
    decide
  rw [hcongr, h1, h2]
  exact key (a / 2 ^ 24) ho

/-- Witness for C8 at 10.0.0.1 (class A). -/
theorem claim_C8_classful_default_witness :
    (167772161 : Nat) < 2 ^ 32 ∧ classfulDefaultPlen 167772161 = 8 :=
  ⟨by norm_num, (claim_C8_classful_default 167772161 (by norm_num)).1 (by decide)⟩

/-- C10: with an IPv6 input (outside the range-deaggregation syntax), `main`
always takes the IPv6 branch, which prints address/netmask/prefix and exits
before the `-s` split handler; any supplied host-size requirements are
silently ignored, so the VLSM arithmetic (whose block prefix is the
hard-coded `32 - floorLog2 blockSize`) only ever runs for IPv4. -/
theorem claim_C10_ipv6_path (printClass : Bool) (split : Option (List Int))
    (sizes : List Int) :
    mainDispatch false true printClass split = .ipv6Info ∧
    mainDispatch false true printClass split ≠ .splitMode sizes := by
  refine ⟨by simp [mainDispatch], ?_⟩
  simp only [mainDispatch]
  intro h
  simp at h

/-- C6 counterexample: requesting a transition of 192.168.0.0/24 to its own
prefix 24 is a silent no-op, not an error, contradicting the claim that it
fails with `InvalidTransition`. -/
theorem claim_C6_counterexample :
    handleSecondNetmask ⟨3232235520, 24⟩ 24 = .silentNoop ∧
    handleSecondNetmask ⟨3232235520, 24⟩ 24 ≠ .invalidNetmask := by
  decide

/-- C6 amended: the second-netmask dispatcher rejects a prefix outside
`[0, 32]` with a generic invalid-netmask error, enumerates subnets only for a
strictly larger prefix, computes the supernet only for a strictly smaller
one, and silently does nothing when the requested prefix equals the current
prefix (there is no distinct `InvalidTransition` condition). -/
theorem claim_C6_amended (n : Network) (q : Int) (hp : n.plen ≤ 32) :
    ((q < 0 ∨ 32 < q) → handleSecondNetmask n q = .invalidNetmask) ∧
    ((n.plen : Int) < q → q ≤ 32 →
      handleSecondNetmask n q = .subnetsOf (subnetsAtPlen n q.toNat)) ∧
    (0 ≤ q → q < (n.plen : Int) →
      handleSecondNetmask n q = .supernetOf (supernetAtPlen n q.toNat)) ∧
    (q = (n.plen : Int) → handleSecondNetmask n q = .silentNoop) := by
  refine ⟨?_, ?_, ?_, ?_⟩
  · intro h
    rw [handleSecondNetmask, if_pos (by omega)]
  · intro h1 h2
    rw [handleSecondNetmask, if_neg (by omega), if_pos h1]
  · intro h1 h2
    rw [handleSecondNetmask, if_neg (by omega), if_neg (by omega), if_pos h2]
  · intro h
    rw [handleSecondNetmask, if_neg (by omega), if_neg (by omega), if_neg (by omega)]

/-- Witness for C6 amended: out-of-range and strictly-narrowing requests on
192.168.0.0/24. -/
theorem claim_C6_amended_witness :
    handleSecondNetmask ⟨3232235520, 24⟩ 33 = .invalidNetmask ∧
    handleSecondNetmask ⟨3232235520, 24⟩ 26 =
      .subnetsOf (subnetsAtPlen ⟨3232235520, 24⟩ 26) :=
  ⟨(claim_C6_amended ⟨3232235520, 24⟩ 33 (by norm_num)).1 (by norm_num),
   (claim_C6_amended ⟨3232235520, 24⟩ 26 (by norm_num)).2.1 (by norm_num) (by norm_num)⟩

/-- C9: widening any subnet produced by narrowing a network to a longer
prefix back to the original prefix reproduces the original network exactly. -/
theorem claim_C9_narrow_widen (n : Network) (hwf : n.wf) (q : Nat)
    (h1 : n.plen < q) (h2 : q ≤ 32) :
    ∀ s ∈ subnetsAtPlen n q, supernetAtPlen s n.plen = n := by
  obtain ⟨b, p⟩ := n
  obtain ⟨hp, hb, hm⟩ := hwf
  simp only at hp hb hm h1
  intro s hs
  simp only [subnetsAtPlen, List.mem_map, List.mem_range] at hs
  obtain ⟨i, hi, rfl⟩ := hs
  have hx : i * 2 ^ (32 - q) < 2 ^ (32 - p) := by
    calc i * 2 ^ (32 - q) < 2 ^ (q - p) * 2 ^ (32 - q) :=
          mul_lt_mul_of_pos_right hi (Nat.two_pow_pos _)
      _ = 2 ^ (32 - p) := by rw [← pow_add]; congr 1; omega
  have hkey : (b + i * 2 ^ (32 - q)) % 2 ^ (32 - p) = i * 2 ^ (32 - q) := by
    obtain ⟨k, hk⟩ := Nat.dvd_of_mod_eq_zero hm
    rw [hk, Nat.mul_add_mod, Nat.mod_eq_of_lt hx]
  simp only [supernetAtPlen]
  rw [hkey]
  congr 1
  omega

/-- Witness for C9: 192.168.0.64/26 widened back to /24 is 192.168.0.0/24. -/
theorem claim_C9_narrow_widen_witness :
    supernetAtPlen ⟨3232235584, 26⟩ 24 = ⟨3232235520, 24⟩ :=
  claim_C9_narrow_widen ⟨3232235520, 24⟩ (by decide) 26 (by norm_num) (by norm_num)
    ⟨3232235584, 26⟩ (by decide)

theorem computeNeededAux_ok (sizes : List Int) : ∀ i, (∀ s ∈ sizes, 0 < s + 2) →
    computeNeededAux i sizes = .ok (neededList i sizes) := by
  induction sizes with
  | nil => intro i _; rfl
  | cons s rest ih =>
    intro i h
    have hs : 0 < s + 2 := h s (by simp)
    simp only [computeNeededAux, neededList]
    rw [if_neg (by omega), ih (i + 1) (fun x hx => h x (by simp [hx]))]

theorem computeNeededAux_error (sizes : List Int) : ∀ i, (∃ s ∈ sizes, s + 2 ≤ 0) →
    computeNeededAux i sizes = .error .logDomain := by
  induction sizes with
  | nil => intro i h; simp at h
  | cons s rest ih =>
    intro i h
    obtain ⟨x, hx, hx2⟩ := h
    by_cases hs : s + 2 ≤ 0
    · simp only [computeNeededAux]
      rw [if_pos hs]
    · have hxr : x ∈ rest := by
        rcases List.mem_cons.1 hx with rfl | hr
        · omega
        · exact hr
      simp only [computeNeededAux]
      rw [if_neg hs, ih (i + 1) ⟨x, hxr, hx2⟩]

theorem neededList_length (sizes : List Int) : ∀ i, (neededList i sizes).length = sizes.length := by
  induction sizes with
  | nil => intro i; rfl
  | cons s rest ih => intro i; simp [neededList, ih]

theorem neededList_map_blockSize (sizes : List Int) : ∀ i,
    (neededList i sizes).map (fun b => b.blockSize) =
      sizes.map (fun s => 2 ^ ceilLog2 (s + 2).toNat) := by
  induction sizes with
  | nil => intro i; rfl
  | cons s rest ih => intro i; simp [neededList, ih]

theorem neededList_getElem? (sizes : List Int) : ∀ i j,
    (neededList i sizes)[j]? =
      sizes[j]?.map (fun s => (⟨s, 2 ^ ceilLog2 (s + 2).toNat, i + j⟩ : NeededBlock)) := by
  induction sizes with
  | nil => intro i j; simp [neededList]
  | cons s rest ih =>
    intro i j
    cases j with
    | zero => simp [neededList]
    | succ j =>
      simp only [neededList, List.getElem?_cons_succ, ih (i + 1) j]
      have : i + 1 + j = i + (j + 1) := by omega
      rw [this]

theorem mem_neededList (sizes : List Int) (b : NeededBlock) : ∀ i, b ∈ neededList i sizes →
    i ≤ b.originalIndex ∧ b.originalIndex < i + sizes.length ∧
      b.blockSize = 2 ^ ceilLog2 (b.originalSize + 2).toNat := by
  induction sizes with
  | nil => intro i h; simp [neededList] at h
  | cons s rest ih =>
    intro i h
    simp only [neededList, List.mem_cons] at h
    rcases h with rfl | h
    · refine ⟨le_refl _, ?_, rfl⟩
      simp only [List.length_cons]
      omega
    · have := ih (i + 1) h
      simp only [List.length_cons]
      refine ⟨by omega, by omega, this.2.2⟩

theorem neededList_pairwise_index (sizes : List Int) : ∀ i,
    List.Pairwise (fun a b : NeededBlock => a.originalIndex < b.originalIndex)
      (neededList i sizes) := by
  induction sizes with
  | nil => intro i; simp [neededList]
  | cons s rest ih =>
    intro i
    simp only [neededList]
    refine List.pairwise_cons.2 ⟨?_, ih (i + 1)⟩
    intro b hb
    have := mem_neededList rest b (i + 1) hb
    simp only
    omega

theorem insertDesc_perm (b : NeededBlock) (l : List NeededBlock) :
    List.Perm (insertDesc b l) (b :: l) := by
  induction l with
  | nil => exact List.Perm.refl _
  | cons c rest ih =>
    simp only [insertDesc]
    split
    · exact List.Perm.refl _
    · exact (ih.cons c).trans (List.Perm.swap b c rest)

theorem foldl_insertDesc_perm (l : List NeededBlock) : ∀ acc,
    List.Perm (l.foldl (fun acc b => insertDesc b acc) acc) (acc ++ l) := by
  induction l with
  | nil => intro acc; simp
  | cons b rest ih =>
    intro acc
    simp only [List.foldl_cons]
    have h1 := ih (insertDesc b acc)
    have h2 : List.Perm (insertDesc b acc ++ rest) (b :: (acc ++ rest)) :=
      (insertDesc_perm b acc).append_right rest
    have h3 : List.Perm (b :: (acc ++ rest)) (acc ++ b :: rest) :=
      List.perm_middle.symm
    exact (h1.trans h2).trans h3

theorem sortByBlockSizeDesc_perm (l : List NeededBlock) :
    List.Perm (sortByBlockSizeDesc l) l := by
  have := foldl_insertDesc_perm l []
  simpa [sortByBlockSizeDesc] using this

theorem insertDesc_pairwise (b : NeededBlock) (l : List NeededBlock)
    (h : List.Pairwise (fun a c : NeededBlock => c.blockSize ≤ a.blockSize) l) :
    List.Pairwise (fun a c : NeededBlock => c.blockSize ≤ a.blockSize) (insertDesc b l) := by
  induction l with
  | nil => simp [insertDesc]
  | cons c rest ih =>
    rw [List.pairwise_cons] at h
    simp only [insertDesc]
    split
    · next hlt =>
      refine List.pairwise_cons.2 ⟨?_, List.pairwise_cons.2 h⟩
      intro x hx
      rcases List.mem_cons.1 hx with rfl | hr
      · omega
      · have := h.1 x hr
        omega
    · next hge =>
      refine List.pairwise_cons.2 ⟨?_, ih h.2⟩
      intro x hx
      have hx' := (insertDesc_perm b rest).mem_iff.1 hx
      rcases List.mem_cons.1 hx' with rfl | hr
      · omega
      · exact h.1 x hr

theorem sortByBlockSizeDesc_sorted (l : List NeededBlock) :
    List.Pairwise (fun a c : NeededBlock => c.blockSize ≤ a.blockSize)
      (sortByBlockSizeDesc l) := by
  suffices h : ∀ acc, List.Pairwise (fun a c : NeededBlock => c.blockSize ≤ a.blockSize) acc →
      List.Pairwise (fun a c : NeededBlock => c.blockSize ≤ a.blockSize)
        (l.foldl (fun acc b => insertDesc b acc) acc) by
    exact h [] (by simp)
  induction l with
  | nil => intro acc hacc; simpa using hacc
  | cons b rest ih =>
    intro acc hacc
    simp only [List.foldl_cons]
    exact ih _ (insertDesc_pairwise b acc hacc)

/-- C2: splitting 192.0.2.0/24 for host counts 50, 20, 10 rounds them to
block sizes 64, 32, 16 (already in descending order, so they are placed in
that order starting at 192.0.2.0) and returns, in the caller's order,
192.0.2.0/26, 192.0.2.64/27 and 192.0.2.96/28. -/
theorem claim_C2_vlsm_example :
    handle_split_network ⟨3221225984, 24⟩ [50, 20, 10] =
      .ok [some ⟨3221225984, 26⟩, some ⟨3221226048, 27⟩, some ⟨3221226080, 28⟩] ∧
    (neededList 0 [50, 20, 10]).map (fun b => b.blockSize) = [64, 32, 16] ∧
    (sortByBlockSizeDesc (neededList 0 [50, 20, 10])).map (fun b => b.blockSize) =
      [64, 32, 16] := by
  refine ⟨by decide, by decide, by decide⟩

/-- C3: when every requirement is roundable (`size + 2 > 0`) and the rounded
power-of-two block sizes sum to more than the parent's address count,
`handle_split_network` fails with the capacity condition carrying exactly
the requested total and the available count, and allocates nothing. -/
theorem claim_C3_capacity_exceeded (n : Network) (sizes : List Int)
    (hdef : ∀ s ∈ sizes, 0 < s + 2)
    (hover : n.numAddresses < totalBlockSizes sizes) :
    handle_split_network n sizes =
      .error (.capacityExceeded (totalBlockSizes sizes) n.numAddresses) := by
  have hsum : ((sortByBlockSizeDesc (neededList 0 sizes)).map (fun b => b.blockSize)).sum =
      totalBlockSizes sizes := by
    have hperm := (sortByBlockSizeDesc_perm (neededList 0 sizes)).map
      (fun b : NeededBlock => b.blockSize)
    rw [hperm.sum_eq, neededList_map_blockSize sizes 0]
    rfl
  simp only [handle_split_network, computeNeededAux_ok sizes 0 hdef, hsum]
  rw [if_pos hover]

/-- Witness for C3: requirements 100, 100, 50 round to 128+128+64 = 320
addresses, exceeding the 256 addresses of 192.0.2.0/24. -/
theorem claim_C3_capacity_exceeded_witness :
    handle_split_network ⟨3221225984, 24⟩ [100, 100, 50] =
      .error (.capacityExceeded (totalBlockSizes [100, 100, 50])
        (Network.numAddresses ⟨3221225984, 24⟩)) :=
  claim_C3_capacity_exceeded ⟨3221225984, 24⟩ [100, 100, 50] (by decide) (by decide)

/-- C4 counterexample: a requested host count of 0 is not rejected with any
error condition; the allocator rounds 0+2 up to a block of 2 addresses and
returns a /31 subnet for it. -/
theorem claim_C4_counterexample :
    handle_split_network ⟨3221225984, 24⟩ [0] = .ok [some ⟨3221225984, 31⟩] := by
  decide

/-- C4 amended: `handle_split_network` has no `InvalidRequirement`
condition. A host count of 0 (or -1) is accepted and rounded to a block of
2 (or 1) addresses; only a host count `h ≤ -2` makes the allocation fail,
and it fails with the undifferentiated `math.log2` domain error. -/
theorem claim_C4_amended :
    handle_split_network ⟨3221225984, 24⟩ [0] = .ok [some ⟨3221225984, 31⟩] ∧
    ∀ (n : Network) (sizes : List Int), (∃ s ∈ sizes, s + 2 ≤ 0) →
      handle_split_network n sizes = .error .logDomain := by
  refine ⟨by decide, ?_⟩
  intro n sizes hex
  simp only [handle_split_network, computeNeededAux_error sizes 0 hex]

/-- Witness for C4 amended: a requirement of -5 hosts fails with the log2
domain error. -/
theorem claim_C4_amended_witness :
    handle_split_network ⟨3221225984, 24⟩ [-5] = .error .logDomain :=
  claim_C4_amended.2 ⟨3221225984, 24⟩ [-5] ⟨-5, by simp, by norm_num⟩

theorem blockSpec_of (h : Int) (hpos : 0 < h + 2) :
    blockSpec h (2 ^ ceilLog2 (h + 2).toNat) := by
  refine ⟨?_, ceilLog2 (h + 2).toNat, rfl, ?_⟩
  · have h1 : (h + 2).toNat ≤ 2 ^ ceilLog2 (h + 2).toNat := le_pow_ceilLog2 _
    omega
  · intro j hj
    have h1 : (h + 2).toNat ≤ 2 ^ j := by omega
    exact Nat.pow_le_pow_right (by omega) (ceilLog2_le _ j h1)

theorem two_pow_dvd_of_le {a b : Nat} (h : (2:Nat) ^ a ≤ 2 ^ b) : (2:Nat) ^ a ∣ 2 ^ b :=
  pow_dvd_pow 2 ((Nat.pow_le_pow_iff_right (by omega : 1 < 2)).1 h)

theorem allocLoop_eq_placeAll :
    ∀ (blocks : List NeededBlock) (cursor : Nat) (acc : List (Option Network)),
    (∀ b ∈ blocks, ∃ k, b.blockSize = 2 ^ k) →
    List.Pairwise (fun a c : NeededBlock => c.blockSize ≤ a.blockSize) blocks →
    (∀ b ∈ blocks, b.blockSize ∣ cursor) →
    cursor + (blocks.map (fun b => b.blockSize)).sum < 2 ^ 32 →
    allocLoop cursor blocks acc = .ok (placeAll cursor blocks acc) := by
  intro blocks
  induction blocks with
  | nil => intro cursor acc _ _ _ _; rfl
  | cons b rest ih =>
    intro cursor acc hpow hsorted hdvd htop
    obtain ⟨k, hk⟩ := hpow b (by simp)
    have hsum : ((b :: rest).map (fun b => b.blockSize)).sum =
        b.blockSize + (rest.map (fun b => b.blockSize)).sum := by simp
    have hk32 : k < 32 := by
      by_contra hge
      have h1 : (2:Nat) ^ 32 ≤ 2 ^ k := Nat.pow_le_pow_right (by omega) (by omega)
      omega
    have hplen : 32 - (32 - floorLog2 b.blockSize) = k := by
      rw [hk, floorLog2_two_pow]
      omega
    have hmod : cursor % 2 ^ (32 - (32 - floorLog2 b.blockSize)) = 0 := by
      rw [hplen]
      have := hdvd b (by simp)
      rw [hk] at this
      exact Nat.mod_eq_zero_of_dvd this
    simp only [allocLoop, placeAll]
    rw [if_neg (not_not_intro hmod), if_neg (by omega)]
    refine ih (cursor + b.blockSize) _ ?_ ?_ ?_ ?_
    · exact fun b' hb' => hpow b' (List.mem_cons_of_mem b hb')
    · exact (List.pairwise_cons.1 hsorted).2
    · intro r hr
      obtain ⟨k', hk'⟩ := hpow r (List.mem_cons_of_mem b hr)
      refine Nat.dvd_add (hdvd r (List.mem_cons_of_mem b hr)) ?_
      have hle : r.blockSize ≤ b.blockSize := (List.pairwise_cons.1 hsorted).1 r hr
      rw [hk', hk] at hle ⊢
      exact two_pow_dvd_of_le hle
    · omega

theorem placeAll_length : ∀ (blocks : List NeededBlock) (cursor : Nat)
    (acc : List (Option Network)), (placeAll cursor blocks acc).length = acc.length := by
  intro blocks
  induction blocks with
  | nil => intro cursor acc; rfl
  | cons b rest ih =>
    intro cursor acc
    simp only [placeAll]
    rw [ih]
    exact List.length_set acc _ _

theorem placeAll_getElem_of_ne : ∀ (blocks : List NeededBlock) (cursor : Nat)
    (acc : List (Option Network)) (i : Nat), (∀ b ∈ blocks, b.originalIndex ≠ i) →
    (placeAll cursor blocks acc)[i]? = acc[i]? := by
  intro blocks
  induction blocks with
  | nil => intro cursor acc i _; rfl
  | cons b rest ih =>
    intro cursor acc i h
    simp only [placeAll]
    rw [ih _ _ i (fun r hr => h r (List.mem_cons_of_mem b hr))]
    exact List.getElem?_set_ne (h b (by simp))

theorem placeAll_getElem_mem : ∀ (blocks : List NeededBlock) (cursor : Nat)
    (acc : List (Option Network)),
    List.Pairwise (fun a c : NeededBlock => a.originalIndex ≠ c.originalIndex) blocks →
    ∀ p ∈ placements cursor blocks, p.1 < acc.length →
    (placeAll cursor blocks acc)[p.1]? = some (some p.2) := by
  intro blocks
  induction blocks with
  | nil => intro cursor acc _ p hp; simp [placements] at hp
  | cons b rest ih =>
    intro cursor acc hpair p hp hlt
    simp only [placements, List.mem_cons] at hp
    rcases hp with rfl | hp
    · simp only [placeAll]
      rw [placeAll_getElem_of_ne rest _ _ _
        (fun r hr => ((List.pairwise_cons.1 hpair).1 r hr).symm)]
      exact List.getElem?_set_self hlt
    · simp only [placeAll]
      refine ih _ _ (List.pairwise_cons.1 hpair).2 p hp ?_
      rw [List.length_set]
      exact hlt

theorem placements_spec :
    ∀ (blocks : List NeededBlock) (cursor : Nat),
    (∀ b ∈ blocks, ∃ k, b.blockSize = 2 ^ k) →
    (∀ b ∈ blocks, b.blockSize ∣ cursor) →
    cursor + (blocks.map (fun b => b.blockSize)).sum ≤ 2 ^ 32 →
    List.Pairwise (fun a c : NeededBlock => c.blockSize ≤ a.blockSize) blocks →
    ∀ p ∈ placements cursor blocks,
      (∃ b ∈ blocks, p.1 = b.originalIndex ∧ p.2.numAddresses = b.blockSize) ∧
      alignedBlock p.2 ∧ cursor ≤ p.2.base ∧
      p.2.base + p.2.numAddresses ≤ cursor + (blocks.map (fun b => b.blockSize)).sum := by
  intro blocks
  induction blocks with
  | nil => intro cursor _ _ _ _ p hp; simp [placements] at hp
  | cons b rest ih =>
    intro cursor hpow hdvd htop hsorted p hp
    obtain ⟨k, hk⟩ := hpow b (by simp)
    have hsum : ((b :: rest).map (fun b => b.blockSize)).sum =
        b.blockSize + (rest.map (fun b => b.blockSize)).sum := by simp
    have hk32 : k ≤ 32 := by
      by_contra hgt
      have h1 : (2:Nat) ^ 33 ≤ 2 ^ k := Nat.pow_le_pow_right (by omega) (by omega)
      have h2 : (2:Nat) ^ 32 < 2 ^ 33 := by norm_num
      omega
    have hnum : (Network.mk cursor (32 - floorLog2 b.blockSize)).numAddresses =
        b.blockSize := by
      simp only [Network.numAddresses]
      rw [hk, floorLog2_two_pow]
      congr 1
      omega
    simp only [placements, List.mem_cons] at hp
    rcases hp with rfl | hp
    · refine ⟨⟨b, by simp, rfl, hnum⟩, ?_, le_refl _, ?_⟩
      · simp only [alignedBlock, hnum]
        exact Nat.mod_eq_zero_of_dvd (hdvd b (by simp))
      · simp only [hnum]
        omega
    · have hdvd' : ∀ r ∈ rest, r.blockSize ∣ cursor + b.blockSize := by
        intro r hr
        obtain ⟨k', hk'⟩ := hpow r (List.mem_cons_of_mem b hr)
        refine Nat.dvd_add (hdvd r (List.mem_cons_of_mem b hr)) ?_
        have hle : r.blockSize ≤ b.blockSize := (List.pairwise_cons.1 hsorted).1 r hr
        rw [hk', hk] at hle ⊢
        exact two_pow_dvd_of_le hle
      have := ih (cursor + b.blockSize)
        (fun r hr => hpow r (List.mem_cons_of_mem b hr)) hdvd'
        (by omega) (List.pairwise_cons.1 hsorted).2 p hp
      obtain ⟨⟨r, hr, h1, h2⟩, h3, h4, h5⟩ := this
      exact ⟨⟨r, List.mem_cons_of_mem b hr, h1, h2⟩, h3, by omega, by omega⟩

theorem placements_pairwise :
    ∀ (blocks : List NeededBlock) (cursor : Nat),
    (∀ b ∈ blocks, ∃ k, b.blockSize = 2 ^ k) →
    (∀ b ∈ blocks, b.blockSize ∣ cursor) →
    cursor + (blocks.map (fun b => b.blockSize)).sum ≤ 2 ^ 32 →
    List.Pairwise (fun a c : NeededBlock => c.blockSize ≤ a.blockSize) blocks →
    List.Pairwise (fun p q : Nat × Network => disjointBlocks p.2 q.2)
      (placements cursor blocks) := by
  intro blocks
  induction blocks with
  | nil => intro cursor _ _ _ _; simp [placements]
  | cons b rest ih =>
    intro cursor hpow hdvd htop hsorted
    obtain ⟨k, hk⟩ := hpow b (by simp)
    have hsum : ((b :: rest).map (fun b => b.blockSize)).sum =
        b.blockSize + (rest.map (fun b => b.blockSize)).sum := by simp
    have hk32 : k ≤ 32 := by
      by_contra hgt
      have h1 : (2:Nat) ^ 33 ≤ 2 ^ k := Nat.pow_le_pow_right (by omega) (by omega)
      have h2 : (2:Nat) ^ 32 < 2 ^ 33 := by norm_num
      omega
    have hnum : (Network.mk cursor (32 - floorLog2 b.blockSize)).numAddresses =
        b.blockSize := by
      simp only [Network.numAddresses]
      rw [hk, floorLog2_two_pow]
      congr 1
      omega
    have hdvd' : ∀ r ∈ rest, r.blockSize ∣ cursor + b.blockSize := by
      intro r hr
      obtain ⟨k', hk'⟩ := hpow r (List.mem_cons_of_mem b hr)
      refine Nat.dvd_add (hdvd r (List.mem_cons_of_mem b hr)) ?_
      have hle : r.blockSize ≤ b.blockSize := (List.pairwise_cons.1 hsorted).1 r hr
      rw [hk', hk] at hle ⊢
      exact two_pow_dvd_of_le hle
    have hrest := ih (cursor + b.blockSize)
      (fun r hr => hpow r (List.mem_cons_of_mem b hr)) hdvd'
      (by omega) (List.pairwise_cons.1 hsorted).2
    simp only [placements]
    refine List.pairwise_cons.2 ⟨?_, hrest⟩
    intro q hq
    have := placements_spec rest (cursor + b.blockSize)
      (fun r hr => hpow r (List.mem_cons_of_mem b hr)) hdvd'
      (by omega) (List.pairwise_cons.1 hsorted).2 q hq
    left
    simp only [hnum]
    omega

theorem placements_fst_mem :
    ∀ (blocks : List NeededBlock) (cursor : Nat) (b : NeededBlock), b ∈ blocks →
    ∃ net, (b.originalIndex, net) ∈ placements cursor blocks := by
  intro blocks
  induction blocks with
  | nil => intro cursor b hb; simp at hb
  | cons c rest ih =>
    intro cursor b hb
    rcases List.mem_cons.1 hb with rfl | hb
    · exact ⟨⟨cursor, 32 - floorLog2 b.blockSize⟩, by simp [placements]⟩
    · obtain ⟨net, hnet⟩ := ih (cursor + c.blockSize) b hb
      exact ⟨net, by simp [placements, hnet]⟩

/-- C1 counterexample: the requirement list [2] fits exactly into
255.255.255.252/30 (one block of 4 addresses in a parent of 4), yet the
allocator does not return the block: the final cursor advance constructs the
address 2^32 and raises, because `current_address += block_size` also runs
after the last placement. -/
theorem claim_C1_counterexample :
    totalBlockSizes [2] ≤ Network.numAddresses ⟨4294967292, 30⟩ ∧
    Network.wf ⟨4294967292, 30⟩ ∧
    handle_split_network ⟨4294967292, 30⟩ [2] = .error .addressOverflow := by
  refine ⟨by decide, by decide, by decide⟩

/-- C1 amended: for every well-formed parent and requirement list whose
rounded power-of-two block sizes exist and sum to at most the parent's
address count, and whose allocation does not end exactly at address 2^32
(the boundary the counterexample exhibits), `handle_split_network` returns
one block per requirement, each block's size the least power of two at least
`requestedHosts + 2`, each block aligned to its own size (so every strict
`ip_network` construction succeeds), each inside the parent, and all blocks
pairwise disjoint. -/
theorem claim_C1_vlsm_allocation (parent : Network) (sizes : List Int)
    (hwf : parent.wf)
    (hpos : ∀ h ∈ sizes, 0 < h + 2)
    (hfit : totalBlockSizes sizes ≤ parent.numAddresses)
    (htop : parent.base + totalBlockSizes sizes < 2 ^ 32) :
    ∃ l : List (Option Network),
      handle_split_network parent sizes = .ok l ∧
      l.length = sizes.length ∧
      (∀ (i : Nat) (h : Int), sizes[i]? = some h → ∃ n : Network,
        l[i]? = some (some n) ∧ blockSpec h n.numAddresses ∧
        alignedBlock n ∧ insideParent parent n) ∧
      (∀ (i j : Nat) (ni nj : Network), i ≠ j →
        l[i]? = some (some ni) → l[j]? = some (some nj) →
        disjointBlocks ni nj) := by
  obtain ⟨hplen, hbase, hmaskz⟩ := hwf
  have hperm := sortByBlockSizeDesc_perm (neededList 0 sizes)
  have hsum : ((sortByBlockSizeDesc (neededList 0 sizes)).map (fun b => b.blockSize)).sum
      = totalBlockSizes sizes := by
    rw [(hperm.map (fun b : NeededBlock => b.blockSize)).sum_eq,
      neededList_map_blockSize sizes 0]
    rfl
  have hpow : ∀ b ∈ sortByBlockSizeDesc (neededList 0 sizes), ∃ k, b.blockSize = 2 ^ k := by
    intro b hb
    have hbn := hperm.mem_iff.1 hb
    exact ⟨ceilLog2 (b.originalSize + 2).toNat, (mem_neededList sizes b 0 hbn).2.2⟩
  have hsorted := sortByBlockSizeDesc_sorted (neededList 0 sizes)
  have hle_total : ∀ b ∈ sortByBlockSizeDesc (neededList 0 sizes),
      b.blockSize ≤ totalBlockSizes sizes := by
    intro b hb
    have h1 : b.blockSize ∈
        (sortByBlockSizeDesc (neededList 0 sizes)).map (fun b => b.blockSize) :=
      List.mem_map_of_mem _ hb
    have h2 := List.le_sum_of_mem h1
    omega
  have hdvd0 : ∀ b ∈ sortByBlockSizeDesc (neededList 0 sizes),
      b.blockSize ∣ parent.base := by
    intro b hb
    obtain ⟨k, hk⟩ := hpow b hb
    have h1 : b.blockSize ≤ 2 ^ (32 - parent.plen) :=
      le_trans (hle_total b hb) hfit
    rw [hk] at h1
    exact dvd_trans (hk ▸ two_pow_dvd_of_le h1) (Nat.dvd_of_mod_eq_zero hmaskz)
  have htop' : parent.base +
      ((sortByBlockSizeDesc (neededList 0 sizes)).map (fun b => b.blockSize)).sum
      < 2 ^ 32 := by
    rw [hsum]
    exact htop
  have halloc := allocLoop_eq_placeAll (sortByBlockSizeDesc (neededList 0 sizes))
    parent.base (List.replicate sizes.length none) hpow hsorted hdvd0 htop'
  have hrun : handle_split_network parent sizes = .ok (placeAll parent.base
      (sortByBlockSizeDesc (neededList 0 sizes)) (List.replicate sizes.length none)) := by
    simp only [handle_split_network, computeNeededAux_ok sizes 0 hpos, hsum]
    rw [if_neg (by omega)]
    exact halloc
  have hpairne : List.Pairwise (fun a c : NeededBlock => a.originalIndex ≠ c.originalIndex)
      (sortByBlockSizeDesc (neededList 0 sizes)) := by
    have h2 : List.Pairwise (fun a c : NeededBlock => a.originalIndex ≠ c.originalIndex)
        (neededList 0 sizes) :=
      (neededList_pairwise_index sizes 0).imp (fun h => by omega)
    exact (hperm.pairwise_iff (fun hxy => hxy.symm)).2 h2
  have key : ∀ i h, sizes[i]? = some h → ∃ net : Network,
      ((i, net) ∈ placements parent.base (sortByBlockSizeDesc (neededList 0 sizes))) ∧
      (placeAll parent.base (sortByBlockSizeDesc (neededList 0 sizes))
        (List.replicate sizes.length none))[i]? = some (some net) ∧
      net.numAddresses = 2 ^ ceilLog2 (h + 2).toNat := by
    intro i h hih
    have hb0 : (neededList 0 sizes)[i]? =
        some ⟨h, 2 ^ ceilLog2 (h + 2).toNat, i⟩ := by
      rw [neededList_getElem? sizes 0 i, hih]
      simp
    have hb0mem : (⟨h, 2 ^ ceilLog2 (h + 2).toNat, i⟩ : NeededBlock) ∈
        neededList 0 sizes := List.getElem?_mem hb0
    have hb0mem' : (⟨h, 2 ^ ceilLog2 (h + 2).toNat, i⟩ : NeededBlock) ∈
        sortByBlockSizeDesc (neededList 0 sizes) := hperm.mem_iff.2 hb0mem
    obtain ⟨net, hnetmem⟩ := placements_fst_mem _ parent.base _ hb0mem'
    have hnetmem' : ((i, net) : Nat × Network) ∈
        placements parent.base (sortByBlockSizeDesc (neededList 0 sizes)) := hnetmem
    obtain ⟨⟨b, hbmem, hfst, hnum⟩, halign, hlo, hhi⟩ :=
      placements_spec _ parent.base hpow hdvd0 (le_of_lt htop') hsorted (i, net) hnetmem'
    have hbb0 : b = ⟨h, 2 ^ ceilLog2 (h + 2).toNat, i⟩ := by
      by_contra hne
      exact (List.Pairwise.forall (fun x y hxy => hxy.symm) hpairne hbmem hb0mem' hne)
        (by rw [← hfst])
    have hi_lt : i < sizes.length := (List.getElem?_eq_some_iff.1 hih).1
    have hget := placeAll_getElem_mem _ parent.base (List.replicate sizes.length none)
      hpairne (i, net) hnetmem' (by simpa using hi_lt)
    refine ⟨net, hnetmem', hget, ?_⟩
    rw [hnum, hbb0]
  refine ⟨_, hrun, ?_, ?_, ?_⟩
  · rw [placeAll_length]
    simp
  · intro i h hih
    obtain ⟨net, hmem, hget, hnum⟩ := key i h hih
    obtain ⟨_, halign, hlo, hhi⟩ :=
      placements_spec _ parent.base hpow hdvd0 (le_of_lt htop') hsorted (i, net) hmem
    have hlo' : parent.base ≤ net.base := hlo
    have hhi' : net.base + net.numAddresses ≤ parent.base +
        ((sortByBlockSizeDesc (neededList 0 sizes)).map (fun b => b.blockSize)).sum := hhi
    rw [hsum] at hhi'
    refine ⟨net, hget, ?_, halign, hlo', ?_⟩
    · rw [hnum]
      exact blockSpec_of h (hpos h (List.getElem?_mem hih))
    · omega
  · intro i j ni nj hij hgi hgj
    have hli : i < sizes.length := by
      have h1 := (List.getElem?_eq_some_iff.1 hgi).1
      rw [placeAll_length, List.length_replicate] at h1
      exact h1
    have hlj : j < sizes.length := by
      have h1 := (List.getElem?_eq_some_iff.1 hgj).1
      rw [placeAll_length, List.length_replicate] at h1
      exact h1
    obtain ⟨neti, hmemi, hgeti, _⟩ := key i _ (List.getElem?_eq_getElem hli)
    obtain ⟨netj, hmemj, hgetj, _⟩ := key j _ (List.getElem?_eq_getElem hlj)
    have hni : ni = neti := by
      have := hgi.symm.trans hgeti
      simpa using this
    have hnj : nj = netj := by
      have := hgj.symm.trans hgetj
      simpa using this
    have hpairdisj := placements_pairwise _ parent.base hpow hdvd0 (le_of_lt htop') hsorted
    have hsymm : Symmetric (fun p q : Nat × Network => disjointBlocks p.2 q.2) :=
      fun p q hpq => Or.symm hpq
    have hd := List.Pairwise.forall hsymm hpairdisj hmemi hmemj
      (fun hcon => hij (congrArg Prod.fst hcon))
    rw [hni, hnj]
    exact hd

/-- Witness for C1 amended at 192.0.2.0/24 with requirements 50, 20, 10. -/
theorem claim_C1_vlsm_allocation_witness :
    Network.wf ⟨3221225984, 24⟩ ∧
    ∃ l, handle_split_network ⟨3221225984, 24⟩ [50, 20, 10] = .ok l ∧ l.length = 3 := by
  refine ⟨by decide, ?_⟩
  obtain ⟨l, h1, h2, _⟩ := claim_C1_vlsm_allocation ⟨3221225984, 24⟩ [50, 20, 10]
    (by decide) (by decide) (by decide) (by decide)
  exact ⟨l, h1, by simpa using h2⟩

theorem greedyNbits_le_w (w last first : Nat) : greedyNbits w last first ≤ w :=
  le_trans (Nat.min_le_left _ _) (countRighthandZeroBits_le first w)

theorem greedy_dvd (w last first : Nat) : 2 ^ greedyNbits w last first ∣ first := by
  refine dvd_trans ?_ (countRighthandZeroBits_dvd first w)
  exact pow_dvd_pow 2 (Nat.min_le_left _ _)

theorem greedy_le_rem (w last first : Nat) :
    2 ^ greedyNbits w last first ≤ last - first + 1 := by
  refine le_trans ?_ (pow_floorLog2_le (last - first + 1) (by omega))
  exact Nat.pow_le_pow_right (by omega) (Nat.min_le_right _ _)

theorem le_greedy (w last first j : Nat) (hjw : j ≤ w) (hdvd : 2 ^ j ∣ first)
    (hle : 2 ^ j ≤ last - first + 1) : j ≤ greedyNbits w last first :=
  le_min (le_countRighthandZeroBits first w j hjw hdvd)
    (le_floorLog2 (last - first + 1) j (by omega) hle)

theorem summarize_nil (w first last : Nat) (h : last < first) :
    summarize_address_range w first last = [] := by
  unfold summarize_address_range
  have h0 : last + 1 - first = 0 := by omega
  rw [h0]
  rfl

theorem summarizeAux_fuel_irrel (w last : Nat) : ∀ fuel fuel' first,
    last + 1 - first ≤ fuel → last + 1 - first ≤ fuel' →
    summarizeAux w last fuel first = summarizeAux w last fuel' first := by
  intro fuel
  induction fuel with
  | zero =>
    intro fuel' first h h'
    cases fuel' with
    | zero => rfl
    | succ f =>
      simp only [summarizeAux]
      rw [if_neg (by omega)]
  | succ fuel ih =>
    intro fuel' first h h'
    by_cases hfl : first ≤ last
    · cases fuel' with
      | zero => omega
      | succ f =>
        simp only [summarizeAux, if_pos hfl]
        have hone : 1 ≤ 2 ^ greedyNbits w last first := Nat.one_le_two_pow
        rw [ih f (first + 2 ^ greedyNbits w last first) (by omega) (by omega)]
    · cases fuel' with
      | zero =>
        simp only [summarizeAux]
        rw [if_neg hfl]
      | succ f =>
        simp only [summarizeAux]
        rw [if_neg hfl, if_neg hfl]

theorem summarize_unfold (w last first : Nat) (hfl : first ≤ last) :
    summarize_address_range w first last =
      (⟨first, w - greedyNbits w last first⟩ : Network) ::
        summarize_address_range w (first + 2 ^ greedyNbits w last first) last := by
  unfold summarize_address_range
  have h1 : last + 1 - first = (last - first) + 1 := by omega
  rw [h1]
  simp only [summarizeAux, if_pos hfl]
  have hone : 1 ≤ 2 ^ greedyNbits w last first := Nat.one_le_two_pow
  rw [summarizeAux_fuel_irrel w last (last - first)
    (last + 1 - (first + 2 ^ greedyNbits w last first))
    (first + 2 ^ greedyNbits w last first) (by omega) (by omega)]

theorem tiles_nil_iff (w : Nat) (lo hi : Nat) (L : List Network)
    (ht : TilesFrom w L lo hi) (hlo : hi ≤ lo) : L = [] := by
  cases L with
  | nil => rfl
  | cons n rest =>
    obtain ⟨_, hle, _⟩ := ht
    have h1 : 1 ≤ blockCount w n := Nat.one_le_two_pow
    omega

theorem summarize_tiles (w last : Nat) : ∀ fuel first, last + 1 - first ≤ fuel →
    first ≤ last + 1 →
    TilesFrom w (summarize_address_range w first last) first (last + 1) := by
  intro fuel
  induction fuel with
  | zero =>
    intro first h1 h2
    have hf : first = last + 1 := by omega
    rw [summarize_nil w first last (by omega)]
    exact hf
  | succ fuel ih =>
    intro first h1 h2
    by_cases hfl : first ≤ last
    · rw [summarize_unfold w last first hfl]
      have hg2 := greedy_le_rem w last first
      have hgw := greedyNbits_le_w w last first
      have hone : 1 ≤ 2 ^ greedyNbits w last first := Nat.one_le_two_pow
      have hbc : blockCount w ⟨first, w - greedyNbits w last first⟩ =
          2 ^ greedyNbits w last first := by
        simp only [blockCount]
        congr 1
        omega
      refine ⟨rfl, ?_, ?_⟩
      · rw [hbc]
        omega
      · rw [hbc]
        exact ih (first + 2 ^ greedyNbits w last first) (by omega) (by omega)
    · have hf : first = last + 1 := by omega
      rw [summarize_nil w first last (by omega)]
      exact hf

theorem summarize_valid (w last : Nat) : ∀ fuel first, last + 1 - first ≤ fuel →
    ∀ n ∈ summarize_address_range w first last, ValidBlock w n := by
  intro fuel
  induction fuel with
  | zero =>
    intro first h1 n hn
    rw [summarize_nil w first last (by omega)] at hn
    simp at hn
  | succ fuel ih =>
    intro first h1 n hn
    by_cases hfl : first ≤ last
    · rw [summarize_unfold w last first hfl] at hn
      have hgw := greedyNbits_le_w w last first
      have hone : 1 ≤ 2 ^ greedyNbits w last first := Nat.one_le_two_pow
      rcases List.mem_cons.1 hn with rfl | hn
      · refine ⟨Nat.sub_le w _, ?_⟩
        have hbc : blockCount w ⟨first, w - greedyNbits w last first⟩ =
            2 ^ greedyNbits w last first := by
          simp only [blockCount]
          congr 1
          omega
        rw [hbc]
        exact Nat.mod_eq_zero_of_dvd (greedy_dvd w last first)
      · exact ih (first + 2 ^ greedyNbits w last first) (by omega) n hn
    · rw [summarize_nil w first last (by omega)] at hn
      simp at hn

theorem tiles_mem_iff (w : Nat) : ∀ (L : List Network) (lo hi : Nat),
    TilesFrom w L lo hi →
    ∀ a : Nat, (∃ n ∈ L, n.base ≤ a ∧ a < n.base + blockCount w n) ↔
      (lo ≤ a ∧ a < hi) := by
  intro L
  induction L with
  | nil =>
    intro lo hi ht a
    have hlh : lo = hi := ht
    simp only [List.not_mem_nil, false_and, exists_false]
    constructor
    · intro h
      exact absurd h (by simp)
    · omega
  | cons n rest ih =>
    intro lo hi ht a
    obtain ⟨hbase, hle, htail⟩ := ht
    have hiff := ih _ _ htail a
    constructor
    · rintro ⟨m, hm, h1, h2⟩
      rcases List.mem_cons.1 hm with rfl | hm
      · rw [hbase] at h1 h2
        omega
      · have := hiff.1 ⟨m, hm, h1, h2⟩
        omega
    · rintro ⟨h1, h2⟩
      by_cases hc : a < lo + blockCount w n
      · refine ⟨n, by simp, ?_, ?_⟩
        · rw [hbase]
          exact h1
        · rw [hbase]
          exact hc
      · obtain ⟨m, hm, hh⟩ := hiff.2 ⟨by omega, h2⟩
        exact ⟨m, List.mem_cons_of_mem n hm, hh⟩

theorem greedy_after_sub (w last first j : Nat) (hfl : first ≤ last)
    (hjlt : j + 1 ≤ greedyNbits w last first) :
    greedyNbits w last (first + 2 ^ j) = j := by
  have hgw := greedyNbits_le_w w last first
  have hgdvd := greedy_dvd w last first
  have hgrem := greedy_le_rem w last first
  have hjw : j ≤ w := by omega
  have hdvd1 : 2 ^ (j + 1) ∣ first := dvd_trans (pow_dvd_pow 2 hjlt) hgdvd
  have hpow2 : (2:Nat) ^ (j + 1) = 2 ^ j + 2 ^ j := by
    rw [pow_succ]
    ring
  have hge : j ≤ greedyNbits w last (first + 2 ^ j) := by
    refine le_greedy w last (first + 2 ^ j) j hjw ?_ ?_
    · exact Nat.dvd_add (dvd_trans (pow_dvd_pow 2 (by omega)) hgdvd) dvd_rfl
    · have h1 : 2 ^ (j + 1) ≤ last - first + 1 :=
        le_trans (Nat.pow_le_pow_right (by omega) hjlt) hgrem
      omega
  have hle : greedyNbits w last (first + 2 ^ j) ≤ j := by
    by_contra hgt
    have h1 : 2 ^ (j + 1) ∣ first + 2 ^ j :=
      dvd_trans (pow_dvd_pow 2 (by omega)) (greedy_dvd w last (first + 2 ^ j))
    have h2 : 2 ^ (j + 1) ∣ 2 ^ j := (Nat.dvd_add_right hdvd1).1 h1
    have h3 : 2 ^ (j + 1) ≤ 2 ^ j := Nat.le_of_dvd (Nat.two_pow_pos j) h2
    omega
  omega

theorem greedyLen_insert (w last : Nat) : ∀ (d first j : Nat), first ≤ last →
    j + d = greedyNbits w last first → 1 ≤ d →
    (summarize_address_range w first last).length ≤
      (summarize_address_range w (first + 2 ^ j) last).length := by
  intro d
  induction d with
  | zero => intro first j _ _ h; omega
  | succ d ih =>
    intro first j hfl hjd _
    have hgrem := greedy_le_rem w last first
    have hjlt : j + 1 ≤ greedyNbits w last first := by omega
    have hstep := greedy_after_sub w last first j hfl hjlt
    have hpowle : 2 ^ (j + 1) ≤ last - first + 1 :=
      le_trans (Nat.pow_le_pow_right (by omega) hjlt) hgrem
    have hpow2 : (2:Nat) ^ (j + 1) = 2 ^ j + 2 ^ j := by
      rw [pow_succ]
      ring
    have hone : (1:Nat) ≤ 2 ^ j := Nat.one_le_two_pow
    have hfl' : first + 2 ^ j ≤ last := by omega
    have hunf' := summarize_unfold w last (first + 2 ^ j) hfl'
    rw [hstep] at hunf'
    by_cases hd0 : d = 0
    · subst hd0
      have hg : greedyNbits w last first = j + 1 := by omega
      rw [summarize_unfold w last first hfl, hunf']
      simp only [List.length_cons]
      have harg : first + 2 ^ j + 2 ^ j = first + 2 ^ greedyNbits w last first := by
        rw [hg]
        omega
      rw [harg]
    · have hih := ih first (j + 1) hfl (by omega) (by omega)
      rw [hunf']
      simp only [List.length_cons]
      have harg : first + 2 ^ j + 2 ^ j = first + 2 ^ (j + 1) := by omega
      rw [harg]
      omega

theorem tiling_head_le_greedy (w last first : Nat)
    (n : Network) (rest : List Network) (hv : ValidBlock w n)
    (ht : TilesFrom w (n :: rest) first (last + 1)) :
    w - n.plen ≤ greedyNbits w last first := by
  obtain ⟨hbase, hle, _⟩ := ht
  have hbc : blockCount w n = 2 ^ (w - n.plen) := rfl
  refine le_greedy w last first (w - n.plen) (by omega) ?_ ?_
  · have h2 := hv.2
    rw [hbase] at h2
    exact Nat.dvd_of_mod_eq_zero h2
  · omega

theorem greedy_minimal (w last : Nat) : ∀ fuel first, last + 1 - first ≤ fuel →
    ∀ L : List Network, (∀ n ∈ L, ValidBlock w n) → TilesFrom w L first (last + 1) →
    (summarize_address_range w first last).length ≤ L.length ∧
    (L.length = (summarize_address_range w first last).length →
      L = summarize_address_range w first last) := by
  intro fuel
  induction fuel with
  | zero =>
    intro first h1 L hv ht
    have hnil : L = [] := tiles_nil_iff w first (last + 1) L ht (by omega)
    subst hnil
    rw [summarize_nil w first last (by omega)]
    exact ⟨le_refl _, fun _ => rfl⟩
  | succ fuel ih =>
    intro first h1 L hv ht
    by_cases hfl : first ≤ last
    · cases L with
      | nil =>
        have hcon : first = last + 1 := ht
        omega
      | cons n rest =>
        have hvn := hv n (by simp)
        have hjle := tiling_head_le_greedy w last first n rest hvn ht
        obtain ⟨hbase, hle, htail⟩ := ht
        have hone : (1:Nat) ≤ 2 ^ greedyNbits w last first := Nat.one_le_two_pow
        have hone' : (1:Nat) ≤ 2 ^ (w - n.plen) := Nat.one_le_two_pow
        have hbc : blockCount w n = 2 ^ (w - n.plen) := rfl
        rcases Nat.eq_or_lt_of_le hjle with heq | hlt
        · have hplen : n.plen = w - greedyNbits w last first := by
            have h2 := hvn.1
            omega
          have hhead : n = ⟨first, w - greedyNbits w last first⟩ := by
            obtain ⟨nb, np⟩ := n
            simp only [Network.mk.injEq]
            exact ⟨hbase, hplen⟩
          have hcount : blockCount w n = 2 ^ greedyNbits w last first := by
            rw [hbc, heq]
          rw [hcount] at htail hle
          have hres := ih (first + 2 ^ greedyNbits w last first) (by omega) rest
            (fun m hm => hv m (List.mem_cons_of_mem n hm)) htail
          rw [summarize_unfold w last first hfl]
          simp only [List.length_cons]
          refine ⟨by omega, ?_⟩
          intro hlen
          have hrest := hres.2 (by omega)
          rw [hhead, hrest]
        · rw [hbc] at htail hle
          have hres := ih (first + 2 ^ (w - n.plen)) (by omega) rest
            (fun m hm => hv m (List.mem_cons_of_mem n hm)) htail
          have hB := greedyLen_insert w last (greedyNbits w last first - (w - n.plen))
            first (w - n.plen) hfl (by omega) (by omega)
          simp only [List.length_cons]
          refine ⟨by omega, ?_⟩
          intro hlen
          exfalso
          omega
    · have hnil : L = [] := tiles_nil_iff w first (last + 1) L ht (by omega)
      subst hnil
      rw [summarize_nil w first last (by omega)]
      exact ⟨le_refl _, fun _ => rfl⟩

/-- C5: for addresses `first ≤ last` of a family of bit width `w`, the
greedy summarization produces an ordered sequence of valid CIDR blocks that
tiles the inclusive range exactly (no gaps, no overlaps), covers precisely
the addresses between `first` and `last`, and among all ordered exact CIDR
covers of the range it has minimal cardinality and is the unique cover of
that cardinality. -/
theorem claim_C5_summarize (w first last : Nat) (hle : first ≤ last)
    (_hlt : last < 2 ^ w) :
    TilesFrom w (summarize_address_range w first last) first (last + 1) ∧
    (∀ n ∈ summarize_address_range w first last, ValidBlock w n) ∧
    (∀ a : Nat, (∃ n ∈ summarize_address_range w first last,
      n.base ≤ a ∧ a < n.base + blockCount w n) ↔ (first ≤ a ∧ a ≤ last)) ∧
    (∀ L : List Network, (∀ n ∈ L, ValidBlock w n) → TilesFrom w L first (last + 1) →
      (summarize_address_range w first last).length ≤ L.length ∧
      (L.length = (summarize_address_range w first last).length →
        L = summarize_address_range w first last)) := by
  have htl := summarize_tiles w last (last + 1 - first) first (le_refl _) (by omega)
  refine ⟨htl, summarize_valid w last (last + 1 - first) first (le_refl _), ?_, ?_⟩
  · intro a
    have hcov := tiles_mem_iff w _ first (last + 1) htl a
    constructor
    · intro h
      have := hcov.1 h
      omega
    · intro h
      exact hcov.2 (by omega)
  · intro L hvL htL
    exact greedy_minimal w last (last + 1 - first) first (le_refl _) L hvL htL

/-- Witness for C5: summarizing 10.0.0.5 - 10.0.0.18 (14 addresses) yields
10.0.0.5/32, 10.0.0.6/31, 10.0.0.8/29, 10.0.0.16/31, 10.0.0.18/32, which
tile the range exactly. -/
theorem claim_C5_summarize_witness :
    ((167772165:Nat) ≤ 167772178 ∧ (167772178:Nat) < 2 ^ 32) ∧
    TilesFrom 32 (summarize_address_range 32 167772165 167772178)
      167772165 (167772178 + 1) ∧
    summarize_address_range 32 167772165 167772178 =
      [⟨167772165, 32⟩, ⟨167772166, 31⟩, ⟨167772168, 29⟩,
       ⟨167772176, 31⟩, ⟨167772178, 32⟩] :=
  ⟨⟨by norm_num, by norm_num⟩,
   (claim_C5_summarize 32 167772165 167772178 (by norm_num) (by norm_num)).1,
   by decide⟩
